import Mathlib

/-!
Shallow embedding of the mjpeg service core (`src/main.go`):
the retrieval engine (`handleImageRequest`), the archive writer
(`archiveWriter` / `newTarFile`) and the dispatch loop (`handleStream`),
together with models of the Go string/integer primitives they use.
-/

namespace Mjpeg

/-- Model of Go `strings.TrimSuffix`: drop `suffix` iff `s` ends with it. -/
def trimSuffix (s suffix : String) : String :=
  if suffix.toList.isSuffixOf s.toList then
    String.mk (s.toList.take (s.toList.length - suffix.toList.length))
  else s

/-- Model of Go `strings.Split(s, sep)` for a one-character separator. -/
def splitOnChar (sep : Char) : List Char → List (List Char)
  | [] => [[]]
  | c :: cs =>
    if c = sep then [] :: splitOnChar sep cs
    else
      match splitOnChar sep cs with
      | [] => [[c]]
      | p :: ps => (c :: p) :: ps

/-- Accumulating decimal scan used by the model of `strconv.ParseInt`:
fails on the first non-digit character. -/
def digitsToNat (acc : Nat) : List Char → Option Nat
  | [] => some acc
  | c :: cs => if c.isDigit then digitsToNat (10 * acc + (c.toNat - 48)) cs else none

/-- Model of Go `strconv.ParseInt(·, 10, 64)` on the character sequence:
optional single sign, at least one decimal digit, no other characters, and
the value must fit in int64 (`-2^63 .. 2^63 - 1`); any violation is an
error (`none`). -/
def parseIntChars (l : List Char) : Option Int :=
  match l with
  | [] => none
  | c :: cs =>
    let p : Bool × List Char :=
      if c = '-' then (true, cs) else if c = '+' then (false, cs) else (false, c :: cs)
    match p.2 with
    | [] => none
    | _ :: _ =>
      match digitsToNat 0 p.2 with
      | none => none
      | some n =>
        if p.1 then (if n ≤ 2 ^ 63 then some (-(n : Int)) else none)
        else (if n < 2 ^ 63 then some ((n : Int)) else none)

/-- Model of Go `strconv.ParseInt(s, 10, 64)`. -/
def parseInt64 (s : String) : Option Int := parseIntChars s.toList

/-- Decimal digits of `n`, most significant first (`fuel ≥ n` suffices). -/
def decDigitsAux : Nat → Nat → List Nat
  | 0, n => [n]
  | fuel + 1, n => if n < 10 then [n] else decDigitsAux fuel (n / 10) ++ [n % 10]

/-- Decimal digits of a natural number, most significant first. -/
def decDigits (n : Nat) : List Nat := decDigitsAux n n

/-- The ASCII character of a decimal digit. -/
def digitChar (d : Nat) : Char := Char.ofNat (48 + d)

/-- Decimal rendering of a natural number. -/
def natDecimal (n : Nat) : String := String.mk ((decDigits n).map digitChar)

/-- Model of Go `strconv.FormatInt(i, 10)`. -/
def formatInt (i : Int) : String :=
  if i < 0 then "-" ++ natDecimal i.natAbs else natDecimal i.natAbs

/-- The segment file name built in `newTarFile` (src/main.go:352):
`streamName + "_" + strconv.FormatInt(startMs, 10) + ".tar"`
(the directory prefix added by `filepath.Join` is common to all segments
of a stream and irrelevant to name ordering). -/
def tarSegmentName (streamName : String) (startMs : Int) : String :=
  streamName ++ "_" ++ formatInt startMs ++ ".tar"

/-- Strict byte-wise lexicographic order on character lists, the order in
which directory entries sort by name. -/
def lexLt : List Char → List Char → Bool
  | [], [] => false
  | [], _ :: _ => true
  | _ :: _, [] => false
  | a :: as, b :: bs =>
    if a.toNat < b.toNat then true
    else if b.toNat < a.toNat then false
    else lexLt as bs

/-- Strict lexicographic order on digit lists. -/
def lexLtN : List Nat → List Nat → Bool
  | [], [] => false
  | [], _ :: _ => true
  | _ :: _, [] => false
  | a :: as, b :: bs =>
    if a < b then true
    else if b < a then false
    else lexLtN as bs

/-! ## Retrieval engine (`handleImageRequest`, src/main.go:54-177) -/

/-- One entry of the stream directory listing, as seen by `os.ReadDir`. -/
structure DirEntry where
  name : String
  isDir : Bool
deriving DecidableEq, Repr

/-- The segment-start timestamp encoded in a `.tar` file name, exactly as
`handleImageRequest` parses it (src/main.go:81-91): require the `.tar`
suffix, split the base name on `_`, require at least two parts, and
parse the last part as a 64-bit decimal integer. -/
def tarFileTs (fileName : String) : Option Int :=
  if (".tar").toList.isSuffixOf fileName.toList then
    let base := trimSuffix fileName ".tar"
    let parts := splitOnChar '_' base.toList
    if parts.length < 2 then none
    else parseIntChars (parts.getLastD [])
  else none

/-- One iteration of the segment-selection loop of `handleImageRequest`
(src/main.go:76-99): skip directories, parse the `.tar` name, and keep the
file whose parsed timestamp is `≤ timestampMs` and strictly greater than
the best so far. -/
def selectStep (timestampMs : Int) (acc : Option String × Int) (file : DirEntry) :
    Option String × Int :=
  if file.isDir then acc
  else
    match tarFileTs file.name with
    | none => acc
    | some tarTimestampMs =>
      if tarTimestampMs ≤ timestampMs ∧ acc.2 < tarTimestampMs then
        (some file.name, tarTimestampMs)
      else acc

/-- The segment-selection loop of `handleImageRequest` (src/main.go:73-99),
with the best-so-far tracker starting at `(nothing, -1)`. -/
def selectBestTar (timestampMs : Int) (files : List DirEntry) : Option String × Int :=
  files.foldl (selectStep timestampMs) (none, -1)

/-- One entry of a tar archive as the scan observes it: its type flag,
name, payload, and whether reading its payload fails. -/
structure TarEntry where
  typeReg : Bool
  name : String
  data : List Nat
  readFails : Bool
deriving DecidableEq, Repr

/-- A tar file as the scan observes it: its readable entries in storage
order, and whether a header-read error occurs after them. -/
structure TarFile where
  entries : List TarEntry
  corruptTail : Bool
deriving DecidableEq, Repr

/-- Outcome of the in-segment scan. -/
inductive ScanOutcome where
  | readErr
  | found (data : List Nat)
  | missing
deriving DecidableEq, Repr

/-- End of the scan loop (src/main.go:167-177): serve the best candidate
if one was recorded, else report not-found. -/
def finishScan (best : Option (List Nat)) : ScanOutcome :=
  match best with
  | some d => ScanOutcome.found d
  | none => ScanOutcome.missing

/-- The in-segment scan loop of `handleImageRequest` (src/main.go:114-165):
non-regular entries are skipped; entries whose name (minus `.jpg`) does not
parse are skipped; an entry with timestamp `≤ timestampMs` whose payload
reads successfully becomes the current best candidate; the first entry with
timestamp `> timestampMs` stops the scan; a header-read error after the
readable entries is a read error. -/
def scanEntries (timestampMs : Int) (corruptTail : Bool)
    (best : Option (List Nat)) : List TarEntry → ScanOutcome
  | [] => if corruptTail then ScanOutcome.readErr else finishScan best
  | e :: rest =>
    if e.typeReg then
      match parseInt64 (trimSuffix e.name ".jpg") with
      | none => scanEntries timestampMs corruptTail best rest
      | some frameTimestampMs =>
        if frameTimestampMs ≤ timestampMs then
          if e.readFails then scanEntries timestampMs corruptTail best rest
          else scanEntries timestampMs corruptTail (some e.data) rest
        else finishScan best
    else scanEntries timestampMs corruptTail best rest

/-- The distinct responses of `handleImageRequest`. -/
inductive ImageResult where
  | badRequest
  | dirReadError
  | noArchive
  | openError
  | archiveReadError
  | noImage
  | ok (data : List Nat)
deriving DecidableEq, Repr

/-- The HTTP status each response carries (src/main.go:60,69,102,109,125,176,169). -/
def httpStatus : ImageResult → Nat
  | ImageResult.badRequest => 400
  | ImageResult.dirReadError => 500
  | ImageResult.noArchive => 404
  | ImageResult.openError => 500
  | ImageResult.archiveReadError => 500
  | ImageResult.noImage => 404
  | ImageResult.ok _ => 200

/-- The whole of `handleImageRequest` (src/main.go:54-177). `dir` is the
directory listing (`none` = `os.ReadDir` failure) and `openTar` maps a
selected file name to its tar content (`none` = `os.Open` failure). -/
def handleImageRequest (timestampStr : String) (dir : Option (List DirEntry))
    (openTar : String → Option TarFile) : ImageResult :=
  match parseInt64 timestampStr with
  | none => ImageResult.badRequest
  | some timestampMs =>
    match dir with
    | none => ImageResult.dirReadError
    | some files =>
      match (selectBestTar timestampMs files).1 with
      | none => ImageResult.noArchive
      | some fileName =>
        match openTar fileName with
        | none => ImageResult.openError
        | some tf =>
          match scanEntries timestampMs tf.corruptTail none tf.entries with
          | ScanOutcome.readErr => ImageResult.archiveReadError
          | ScanOutcome.found d => ImageResult.ok d
          | ScanOutcome.missing => ImageResult.noImage

/-! ## Archive writer (`archiveWriter` / `newTarFile`, src/main.go:321-411) -/

/-- The data for a single frame sent to the archiver (src/main.go:25-28). -/
structure archiveFrame where
  Name : String
  Data : List Nat
deriving DecidableEq, Repr

/-- One on-disk tar segment: its start timestamp (encoded in its file name
by `newTarFile`) and the frame entries written into it, in order. -/
structure Segment where
  startMs : Int
  entries : List archiveFrame
deriving DecidableEq, Repr

/-- The file-system failures the writer can encounter: `createFails startMs`
models `os.Create` failing for the segment whose name encodes `startMs`
(src/main.go:355-361); `writeFails name` models `tarWriter.WriteHeader` or
`tarWriter.Write` failing for the entry `name` (src/main.go:398-405), either
of which makes the writer skip the entry and continue. -/
structure ArchWorld where
  createFails : Int → Bool
  writeFails : String → Bool

/-- The failure-free file system. -/
def pureWorld : ArchWorld := ⟨fun _ => false, fun _ => false⟩

/-- The archiver state: `currentTarStartMs` is `-1` when no segment is open
(src/main.go:328); `segments` are the segment files created so far, in
creation order; `halted` records that the writer returned after a failed
`newTarFile` (src/main.go:386-389). -/
structure WriterState where
  currentTarStartMs : Int
  segments : List Segment
  halted : Bool
deriving DecidableEq, Repr

/-- The writer's initial state. -/
def initialWriterState : WriterState := ⟨-1, [], false⟩

/-- The timestamp the archiver parses from a frame name (src/main.go:375). -/
def frameTs (f : archiveFrame) : Option Int :=
  parseInt64 (trimSuffix f.Name ".jpg")

/-- Append a frame entry to the currently open (last-created) segment. -/
def appendToLast (segs : List Segment) (f : archiveFrame) : List Segment :=
  match segs with
  | [] => []
  | [s] => [{ s with entries := s.entries ++ [f] }]
  | s :: rest => s :: appendToLast rest f

/-- Write one frame entry into the open segment (src/main.go:392-405). -/
def appendEntry (s : WriterState) (f : archiveFrame) : WriterState :=
  { s with segments := appendToLast s.segments f }

/-- Processing of one frame received from the channel by `archiveWriter`
(src/main.go:369-405): parse the timestamp from the frame name (skip the
frame if unparsable); rotate — via `newTarFile` — when no segment is open
(`currentTarStartMs = -1`) or the timestamp is at least 60000 ms past the
current segment start, halting if the new file cannot be created; then
write the entry, skipping it if the header or data write fails. -/
def archiveStep (w : ArchWorld) (s : WriterState) (f : archiveFrame) : WriterState :=
  if s.halted then s
  else
    match frameTs f with
    | none => s
    | some frameTimestampMs =>
      if s.currentTarStartMs = -1 ∨ frameTimestampMs - s.currentTarStartMs ≥ 60000 then
        if w.createFails frameTimestampMs then { s with halted := true }
        else
          let s1 : WriterState :=
            { currentTarStartMs := frameTimestampMs
              segments := s.segments ++ [⟨frameTimestampMs, []⟩]
              halted := false }
          if w.writeFails f.Name then s1 else appendEntry s1 f
      else if w.writeFails f.Name then s
      else appendEntry s f

/-- The archiver run on the sequence of frames received from the hand-off,
in order. -/
def archiveRun (w : ArchWorld) (fs : List archiveFrame) : WriterState :=
  fs.foldl (archiveStep w) initialWriterState

/-- All entries of all segments, in write order. -/
def entriesJoin (segs : List Segment) : List archiveFrame :=
  (segs.map Segment.entries).flatten

/-- An event observed by the archiver's `select` (src/main.go:367-409):
delivery of a frame from the channel, channel closure, or context
cancellation. The event list is one scheduling of the `select`
nondeterminism. -/
inductive WriterEvent where
  | deliver (f : archiveFrame)
  | closed
  | cancel
deriving Repr

/-- The archiver's `select` loop over a schedule of events: a delivered
frame is processed by `archiveStep` (returning on a creation failure);
channel closure and cancellation both return immediately with the current
state (src/main.go:370-373 and 406-408). -/
def runEvents (w : ArchWorld) (s : WriterState) : List WriterEvent → WriterState
  | [] => s
  | WriterEvent.deliver f :: rest =>
    let s1 := archiveStep w s f
    if s1.halted then s1 else runEvents w s1 rest
  | WriterEvent.closed :: _ => s
  | WriterEvent.cancel :: _ => s

/-! ## Dispatch pipeline (`handleStream`, src/main.go:179-319) -/

/-- The capacity of the archive hand-off channel (src/main.go:208). -/
def archiveChCap : Nat := 300

/-- One multipart part as the dispatch loop observes it: its
`X-Client-Timestamp` header (empty string = missing header), whether
reading its body fails, and its bytes. -/
structure StreamPart where
  clientTimestamp : String
  readFails : Bool
  data : List Nat
deriving DecidableEq, Repr

/-- What the dispatch loop produced: the frames admitted into the archive
hand-off in order, the bytes written to the transcoder's input, the
timestamps of frames dropped because the hand-off was full, and whether
the loop ended early on a transcoder write failure. -/
structure DispatchResult where
  admitted : List archiveFrame
  ffmpegBytes : List Nat
  dropped : List String
  terminated : Bool
deriving DecidableEq, Repr

/-- The multipart dispatch loop of `handleStream` (src/main.go:266-306),
one iteration per part, indexed so the oracles can vary per part:
`occupancy i` is the number of frames buffered in the hand-off when part
`i` is admitted (the non-blocking send succeeds iff it is below
`archiveChCap`); `ffmpegFails i` models the blocking `ffmpegStdin.Write`
failing, which breaks the loop. A part with a missing timestamp header or
an unreadable body is skipped. -/
def dispatchLoop (occupancy : Nat → Nat) (ffmpegFails : Nat → Bool) :
    Nat → List StreamPart → DispatchResult
  | _, [] => ⟨[], [], [], false⟩
  | i, p :: rest =>
    if p.clientTimestamp = "" then dispatchLoop occupancy ffmpegFails (i + 1) rest
    else if p.readFails then dispatchLoop occupancy ffmpegFails (i + 1) rest
    else
      let f : archiveFrame := ⟨p.clientTimestamp ++ ".jpg", p.data⟩
      let adm : Bool := occupancy i < archiveChCap
      if ffmpegFails i then
        { admitted := if adm then [f] else []
          ffmpegBytes := []
          dropped := if adm then [] else [p.clientTimestamp]
          terminated := true }
      else
        let r := dispatchLoop occupancy ffmpegFails (i + 1) rest
        { admitted := (if adm then [f] else []) ++ r.admitted
          ffmpegBytes := p.data ++ r.ffmpegBytes
          dropped := (if adm then [] else [p.clientTimestamp]) ++ r.dropped
          terminated := r.terminated }

/-! ## Pure restatements of the rotation rule (for the segment-count and
window properties of the specification) -/

/-- The segment start timestamps produced by the rotation rule from a
timestamp sequence, starting from open-segment start `cur` (`-1` = none). -/
def segStartsAux (cur : Int) : List Int → List Int
  | [] => []
  | t :: ts =>
    if cur = -1 ∨ t - cur ≥ 60000 then t :: segStartsAux t ts
    else segStartsAux cur ts

/-- The number of times the 60-second window condition fires (a frame
arriving with a segment open and `t - segmentStart ≥ 60000`). -/
def countWindowFires (cur : Int) : List Int → Nat
  | [] => 0
  | t :: ts =>
    if cur = -1 then countWindowFires t ts
    else if t - cur ≥ 60000 then countWindowFires t ts + 1
    else countWindowFires cur ts

/-! ## Helper lemmas -/

theorem appendToLast_map_startMs (segs : List Segment) (f : archiveFrame) :
    (appendToLast segs f).map Segment.startMs = segs.map Segment.startMs := by
  induction segs with
  | nil => rfl
  | cons s rest ih =>
    cases rest with
    | nil => rfl
    | cons s2 rest2 => simpa [appendToLast] using ih

theorem entriesJoin_appendToLast (segs : List Segment) (f : archiveFrame)
    (h : segs ≠ []) :
    entriesJoin (appendToLast segs f) = entriesJoin segs ++ [f] := by
  induction segs with
  | nil => exact absurd rfl h
  | cons s rest ih =>
    cases rest with
    | nil => simp [appendToLast, entriesJoin]
    | cons s2 rest2 =>
      simp only [appendToLast, entriesJoin, List.map_cons, List.flatten_cons]
      have h2 := ih (by simp)
      simp only [entriesJoin, List.map_cons, List.flatten_cons] at h2
      rw [h2]
      simp [List.append_assoc]

theorem entriesJoin_append_empty (segs : List Segment) (t : Int) :
    entriesJoin (segs ++ [⟨t, []⟩]) = entriesJoin segs := by
  simp [entriesJoin]

theorem archiveStep_halted (w : ArchWorld) (s : WriterState) (f : archiveFrame)
    (h : s.halted = true) : archiveStep w s f = s := by
  simp [archiveStep, h]

theorem foldl_archiveStep_halted (w : ArchWorld) (s : WriterState)
    (fs : List archiveFrame) (h : s.halted = true) :
    fs.foldl (archiveStep w) s = s := by
  induction fs with
  | nil => rfl
  | cons f rest ih => rw [List.foldl_cons, archiveStep_halted w s f h, ih]

theorem scanEntries_stops_at_first_late (target t : Int) (e : TarEntry) (c : Bool)
    (hreg : e.typeReg = true)
    (hparse : parseInt64 (trimSuffix e.name ".jpg") = some t)
    (hlt : target < t) :
    ∀ (es rest : List TarEntry) (best : Option (List Nat)),
      scanEntries target c best (es ++ e :: rest) = scanEntries target c best (es ++ [e]) := by
  intro es
  induction es with
  | nil =>
    intro rest best
    simp only [List.nil_append, scanEntries, hreg, hparse, if_true]
    rw [if_neg (not_le.mpr hlt), if_neg (not_le.mpr hlt)]
  | cons x xs ih =>
    intro rest best
    simp only [List.cons_append, scanEntries]
    by_cases hx : x.typeReg = true
    · rw [if_pos hx, if_pos hx]
      cases hp : parseInt64 (trimSuffix x.name ".jpg") with
      | none =>
        dsimp only
        exact ih rest best
      | some ts =>
        dsimp only
        by_cases hts : ts ≤ target
        · rw [if_pos hts, if_pos hts]
          by_cases hrf : x.readFails = true
          · rw [if_pos hrf, if_pos hrf]
            exact ih rest best
          · rw [if_neg hrf, if_neg hrf]
            exact ih rest _
        · rw [if_neg hts, if_neg hts]
    · rw [if_neg hx, if_neg hx]
      exact ih rest best

/-! ## Claim theorems -/

/-- The segment of claim C1: three regular entries with non-decreasing
timestamps 5, 15, 25 and distinct payloads. -/
def c1Entries : List TarEntry :=
  [⟨true, "5.jpg", [105], false⟩, ⟨true, "15.jpg", [115], false⟩,
   ⟨true, "25.jpg", [125], false⟩]

/-- C1: in-segment retrieval over entries at timestamps 5, 15, 25 returns
the payload of the most recent entry with timestamp ≤ target (target 20 →
frame 15, target 25 → frame 25, target 1000 → frame 25, target 4 →
not-found), and the scan stops at the first entry whose timestamp exceeds
the target: everything after that entry is irrelevant to the result. -/
theorem c1_in_segment_retrieval :
    (scanEntries 20 false none c1Entries = ScanOutcome.found [115]
      ∧ scanEntries 25 false none c1Entries = ScanOutcome.found [125]
      ∧ scanEntries 1000 false none c1Entries = ScanOutcome.found [125]
      ∧ scanEntries 4 false none c1Entries = ScanOutcome.missing)
    ∧ ∀ (target t : Int) (e : TarEntry) (c : Bool) (es rest : List TarEntry)
        (best : Option (List Nat)),
        e.typeReg = true → parseInt64 (trimSuffix e.name ".jpg") = some t →
        target < t →
        scanEntries target c best (es ++ e :: rest) = scanEntries target c best (es ++ [e]) := by
  refine ⟨⟨by decide, by decide, by decide, by decide⟩, ?_⟩
  intro target t e c es rest best hreg hparse hlt
  exact scanEntries_stops_at_first_late target t e c hreg hparse hlt es rest best

/-- Witness for C1: the early-stop part applied at a concrete late entry
(timestamp 25 > target 20) followed by a junk entry that the scan never
reads. -/
theorem c1_in_segment_retrieval_witness :
    scanEntries 20 false none
        ([⟨true, "5.jpg", [105], false⟩] ++ ⟨true, "25.jpg", [125], false⟩
          :: [⟨true, "7.jpg", [107], false⟩])
      = scanEntries 20 false none
        ([⟨true, "5.jpg", [105], false⟩] ++ [⟨true, "25.jpg", [125], false⟩]) :=
  c1_in_segment_retrieval.2 20 25 ⟨true, "25.jpg", [125], false⟩ false
    [⟨true, "5.jpg", [105], false⟩] [⟨true, "7.jpg", [107], false⟩] none
    rfl (by decide) (by decide)

/-- C10: a retrieval request whose timestamp path parameter does not parse
as a 64-bit decimal integer is answered with bad-request no matter what the
directory or the segment files contain (so nothing is read), and the
bad-request status 400 differs from not-found (404) and from the retrieval
failure statuses (500). -/
theorem c10_bad_timestamp_rejected :
    (∀ (s : String) (dir : Option (List DirEntry)) (openTar : String → Option TarFile),
        parseInt64 s = none → handleImageRequest s dir openTar = ImageResult.badRequest)
    ∧ httpStatus ImageResult.badRequest = 400
    ∧ httpStatus ImageResult.noArchive = 404
    ∧ httpStatus ImageResult.noImage = 404
    ∧ httpStatus ImageResult.openError = 500
    ∧ httpStatus ImageResult.archiveReadError = 500
    ∧ httpStatus ImageResult.badRequest ≠ httpStatus ImageResult.noArchive
    ∧ httpStatus ImageResult.badRequest ≠ httpStatus ImageResult.noImage
    ∧ httpStatus ImageResult.badRequest ≠ httpStatus ImageResult.archiveReadError := by
  refine ⟨?_, rfl, rfl, rfl, rfl, rfl, by decide, by decide, by decide⟩
  intro s dir openTar h
  simp [handleImageRequest, h]

/-- Witness for C10: the unparsable timestamp `"abc"` with a non-empty
directory is rejected as bad-request. -/
theorem c10_bad_timestamp_rejected_witness :
    handleImageRequest "abc" (some [⟨"cam_0.tar", false⟩]) (fun _ => none)
      = ImageResult.badRequest :=
  c10_bad_timestamp_rejected.1 "abc" (some [⟨"cam_0.tar", false⟩]) (fun _ => none)
    (by decide)

/-- C9: with a segment open (start `c ≠ -1`), a parsable frame whose
timestamp `t` is lower than `c` — arbitrarily far in the past — does not
rotate: it is appended to the open segment, whose start list is unchanged,
so the segment holds an entry with timestamp before its own start.
Concretely, frames at 100000 then 5 end up in the single segment starting
at 100000. -/
theorem c9_past_frame_appended_without_rotation :
    (∀ (w : ArchWorld) (s : WriterState) (f : archiveFrame) (t : Int),
        s.halted = false → s.currentTarStartMs ≠ -1 →
        frameTs f = some t → t < s.currentTarStartMs →
        w.writeFails f.Name = false →
        (archiveStep w s f).segments.map Segment.startMs
            = s.segments.map Segment.startMs
          ∧ (archiveStep w s f).segments = appendToLast s.segments f
          ∧ (archiveStep w s f).currentTarStartMs = s.currentTarStartMs
          ∧ (archiveStep w s f).halted = false)
    ∧ (archiveRun pureWorld [⟨"100000.jpg", [1]⟩, ⟨"5.jpg", [2]⟩]).segments
        = [⟨100000, [⟨"100000.jpg", [1]⟩, ⟨"5.jpg", [2]⟩]⟩]
    ∧ ((5 : Int) < 100000) := by
  refine ⟨?_, by decide, by decide⟩
  intro w s f t hh hc hp hlt hw
  have hcond : ¬(s.currentTarStartMs = -1 ∨ t - s.currentTarStartMs ≥ 60000) := by
    push_neg
    exact ⟨hc, by omega⟩
  have hstep : archiveStep w s f = appendEntry s f := by
    simp only [archiveStep, hh, Bool.false_eq_true, if_false, hp]
    rw [if_neg hcond, if_neg (by simp [hw])]
  rw [hstep]
  exact ⟨appendToLast_map_startMs s.segments f, rfl, rfl, hh⟩

/-- Witness for C9: a concrete step from a state with an open segment
starting at 100000 on a frame at timestamp 5. -/
theorem c9_past_frame_appended_without_rotation_witness :
    (archiveStep pureWorld ⟨100000, [⟨100000, []⟩], false⟩ ⟨"5.jpg", [2]⟩).segments
        = appendToLast [⟨100000, []⟩] ⟨"5.jpg", [2]⟩ :=
  (c9_past_frame_appended_without_rotation.1 pureWorld
    ⟨100000, [⟨100000, []⟩], false⟩ ⟨"5.jpg", [2]⟩ 5
    rfl (by decide) (by decide) (by decide) rfl).2.1

theorem mem_entriesJoin_appendToLast (segs : List Segment) (f e : archiveFrame)
    (h : e ∈ entriesJoin (appendToLast segs f)) :
    e ∈ entriesJoin segs ∨ e = f := by
  cases segs with
  | nil => simp [appendToLast, entriesJoin] at h
  | cons s rest =>
    rw [entriesJoin_appendToLast (s :: rest) f (by simp)] at h
    rcases List.mem_append.mp h with h1 | h1
    · exact Or.inl h1
    · exact Or.inr (List.mem_singleton.mp h1)

theorem mem_entriesJoin_archiveStep (w : ArchWorld) (s : WriterState)
    (f e : archiveFrame) (h : e ∈ entriesJoin (archiveStep w s f).segments) :
    e ∈ entriesJoin s.segments ∨ e = f := by
  unfold archiveStep at h
  by_cases hh : s.halted = true
  · rw [if_pos hh] at h
    exact Or.inl h
  · rw [if_neg hh] at h
    cases hp : frameTs f with
    | none =>
      rw [hp] at h
      exact Or.inl h
    | some ts =>
      rw [hp] at h
      dsimp only at h
      by_cases hrot : s.currentTarStartMs = -1 ∨ ts - s.currentTarStartMs ≥ 60000
      · rw [if_pos hrot] at h
        by_cases hcf : w.createFails ts = true
        · rw [if_pos hcf] at h
          exact Or.inl h
        · rw [if_neg hcf] at h
          by_cases hwf : w.writeFails f.Name = true
          · rw [if_pos hwf] at h
            rw [show (⟨ts, s.segments ++ [⟨ts, []⟩], false⟩ : WriterState).segments
                  = s.segments ++ [⟨ts, []⟩] from rfl, entriesJoin_append_empty] at h
            exact Or.inl h
          · rw [if_neg hwf] at h
            rcases mem_entriesJoin_appendToLast _ f e h with h1 | h1
            · rw [entriesJoin_append_empty] at h1
              exact Or.inl h1
            · exact Or.inr h1
      · rw [if_neg hrot] at h
        by_cases hwf : w.writeFails f.Name = true
        · rw [if_pos hwf] at h
          exact Or.inl h
        · rw [if_neg hwf] at h
          exact mem_entriesJoin_appendToLast _ f e h

theorem mem_entriesJoin_foldl (w : ArchWorld) (fs : List archiveFrame) :
    ∀ (s : WriterState) (e : archiveFrame),
      e ∈ entriesJoin (fs.foldl (archiveStep w) s).segments →
      e ∈ entriesJoin s.segments ∨ e ∈ fs := by
  induction fs with
  | nil =>
    intro s e h
    exact Or.inl h
  | cons f rest ih =>
    intro s e h
    rcases ih (archiveStep w s f) e h with h1 | h1
    · rcases mem_entriesJoin_archiveStep w s f e h1 with h2 | h2
      · exact Or.inl h2
      · exact Or.inr (by simp [h2])
    · exact Or.inr (List.mem_cons_of_mem f h1)

/-- C4: when the hand-off (capacity 300) is full at admission time, the
frame is not admitted for archival and its timestamp is logged as dropped,
but the loop neither blocks nor ends: the frame's bytes still go to the
transcoder and the remaining parts are processed as before; and every
entry in any archive segment is a frame that was received from the
hand-off, so a frame never admitted is never archived. -/
theorem c4_backpressure_drop_policy :
    (∀ (occupancy : Nat → Nat) (ffmpegFails : Nat → Bool) (i : Nat)
        (p : StreamPart) (rest : List StreamPart),
        p.clientTimestamp ≠ "" → p.readFails = false →
        archiveChCap ≤ occupancy i → ffmpegFails i = false →
        (dispatchLoop occupancy ffmpegFails i (p :: rest)).admitted
            = (dispatchLoop occupancy ffmpegFails (i + 1) rest).admitted
          ∧ (dispatchLoop occupancy ffmpegFails i (p :: rest)).ffmpegBytes
            = p.data ++ (dispatchLoop occupancy ffmpegFails (i + 1) rest).ffmpegBytes
          ∧ (dispatchLoop occupancy ffmpegFails i (p :: rest)).dropped
            = p.clientTimestamp :: (dispatchLoop occupancy ffmpegFails (i + 1) rest).dropped
          ∧ (dispatchLoop occupancy ffmpegFails i (p :: rest)).terminated
            = (dispatchLoop occupancy ffmpegFails (i + 1) rest).terminated)
    ∧ (∀ (w : ArchWorld) (fs : List archiveFrame) (e : archiveFrame),
        e ∈ entriesJoin (archiveRun w fs).segments → e ∈ fs) := by
  constructor
  · intro occupancy ffmpegFails i p rest hts hrf hfull hff
    have hadm : ¬ occupancy i < archiveChCap := not_lt.mpr hfull
    simp only [dispatchLoop, if_neg hts, hrf, Bool.false_eq_true, if_false, hff]
    simp [hadm]
  · intro w fs e h
    rcases mem_entriesJoin_foldl w fs initialWriterState e h with h1 | h1
    · simp [initialWriterState, entriesJoin] at h1
    · exact h1

/-- Witness for C4: with the hand-off full at index 0, the single part is
dropped for archival, its bytes still reach the transcoder, and the loop
does not terminate. -/
theorem c4_backpressure_drop_policy_witness :
    (dispatchLoop (fun _ => 300) (fun _ => false) 0 [⟨"123", false, [7]⟩]).admitted
        = (dispatchLoop (fun _ => 300) (fun _ => false) 1 []).admitted
      ∧ (dispatchLoop (fun _ => 300) (fun _ => false) 0 [⟨"123", false, [7]⟩]).ffmpegBytes
        = [7] ++ (dispatchLoop (fun _ => 300) (fun _ => false) 1 []).ffmpegBytes
      ∧ (dispatchLoop (fun _ => 300) (fun _ => false) 0 [⟨"123", false, [7]⟩]).dropped
        = "123" :: (dispatchLoop (fun _ => 300) (fun _ => false) 1 []).dropped
      ∧ (dispatchLoop (fun _ => 300) (fun _ => false) 0 [⟨"123", false, [7]⟩]).terminated
        = (dispatchLoop (fun _ => 300) (fun _ => false) 1 []).terminated :=
  c4_backpressure_drop_policy.1 (fun _ => 300) (fun _ => false) 0
    ⟨"123", false, [7]⟩ [] (by decide) rfl (by decide) rfl

/-- Counterexample to C6: the part with the malformed (non-empty,
unparsable) timestamp `"abc"` is forwarded to BOTH consumers — it is
admitted into the archive hand-off as the frame `abc.jpg` and its bytes
are written to the transcoder — although its timestamp does not parse. -/
theorem c6_counterexample :
    parseInt64 (trimSuffix "abc.jpg" ".jpg") = none
    ∧ (dispatchLoop (fun _ => 0) (fun _ => false) 0 [⟨"abc", false, [7]⟩]).admitted
        = [⟨"abc.jpg", [7]⟩]
    ∧ (dispatchLoop (fun _ => 0) (fun _ => false) 0 [⟨"abc", false, [7]⟩]).ffmpegBytes
        = [7] := by
  refine ⟨by decide, by decide, by decide⟩

/-- C6 as amended: only a frame with a MISSING timestamp header (empty
string) is rejected before reaching either consumer — the dispatch loop
skips it entirely and continues; a malformed-but-present timestamp passes
to both consumers, and the Archive Writer then discards it at parse time
without changing its state, so it never appears in a segment. -/
theorem c6_missing_timestamp_rejected :
    (∀ (occupancy : Nat → Nat) (ffmpegFails : Nat → Bool) (i : Nat)
        (rest : List StreamPart) (rf : Bool) (d : List Nat),
        dispatchLoop occupancy ffmpegFails i (⟨"", rf, d⟩ :: rest)
          = dispatchLoop occupancy ffmpegFails (i + 1) rest)
    ∧ (∀ (w : ArchWorld) (s : WriterState) (f : archiveFrame),
        frameTs f = none → archiveStep w s f = s) := by
  constructor
  · intro occupancy ffmpegFails i rest rf d
    simp [dispatchLoop]
  · intro w s f hp
    by_cases hh : s.halted = true
    · exact archiveStep_halted w s f hh
    · simp [archiveStep, hh, hp]

/-- Witness for C6 (amended): the writer's state is unchanged by the
unparsable frame `abc.jpg`. -/
theorem c6_missing_timestamp_rejected_witness :
    archiveStep pureWorld initialWriterState ⟨"abc.jpg", [7]⟩ = initialWriterState :=
  c6_missing_timestamp_rejected.2 pureWorld initialWriterState ⟨"abc.jpg", [7]⟩ (by decide)

/-- The frames admitted into the hand-off in the C7 counterexample. -/
def handoffC7 : List archiveFrame := [⟨"1000.jpg", [1]⟩, ⟨"2000.jpg", [2]⟩]

/-- Counterexample to C7: the archiver's `select` may observe cancellation
while frames are still buffered in the hand-off; with two admitted frames
and a schedule that delivers none of them before cancellation, the writer
stops with an empty archive — two admitted frames are lost, more than the
single in-flight frame the claim allows. -/
theorem c7_counterexample :
    (runEvents pureWorld initialWriterState
        ((handoffC7.take 0).map WriterEvent.deliver ++ [WriterEvent.cancel])).segments
        = []
    ∧ handoffC7.length - (handoffC7.take 0).length = 2
    ∧ ¬ (handoffC7.length - (handoffC7.take 0).length ≤ 1) := by
  refine ⟨rfl, by decide, by decide⟩

/-- C7 as amended: when the cancellation signal is observed the writer
unwinds immediately with its current state, abandoning any frames still
buffered in the hand-off (up to its capacity); every frame actually
delivered before cancellation is processed exactly as in the normal run. -/
theorem c7_cancellation_unwinds_without_drain :
    (∀ (w : ArchWorld) (s : WriterState) (evs : List WriterEvent),
        runEvents w s (WriterEvent.cancel :: evs) = s)
    ∧ (∀ (w : ArchWorld) (s : WriterState) (fs : List archiveFrame),
        runEvents w s (fs.map WriterEvent.deliver ++ [WriterEvent.cancel])
          = fs.foldl (archiveStep w) s) := by
  constructor
  · intro w s evs
    rfl
  · intro w s fs
    induction fs generalizing s with
    | nil => rfl
    | cons f rest ih =>
      simp only [List.map_cons, List.cons_append, runEvents, List.foldl_cons]
      by_cases h : (archiveStep w s f).halted = true
      · rw [if_pos h, foldl_archiveStep_halted w _ rest h]
      · rw [if_neg h]
        exact ih _

/-- Segment correspondence between a run with write failures and the
failure-free run: same segment start, and the failing run holds exactly
the entries whose writes succeed. -/
def segSim (w : ArchWorld) (a b : Segment) : Prop :=
  a.startMs = b.startMs
    ∧ a.entries = b.entries.filter (fun e => !w.writeFails e.Name)

theorem appendToLast_sim_keep (w : ArchWorld) (f : archiveFrame)
    (hw : w.writeFails f.Name = false) :
    ∀ (xs ys : List Segment), List.Forall₂ (segSim w) xs ys →
      List.Forall₂ (segSim w) (appendToLast xs f) (appendToLast ys f) := by
  intro xs
  induction xs with
  | nil =>
    intro ys h
    cases h
    exact List.Forall₂.nil
  | cons x xs ih =>
    intro ys h
    cases h with
    | cons hxy hrest =>
      rename_i y ys2
      cases xs with
      | nil =>
        cases hrest
        refine List.Forall₂.cons ⟨hxy.1, ?_⟩ List.Forall₂.nil
        simp [List.filter_append, hxy.2, hw]
      | cons x2 xs2 =>
        cases hrest with
        | cons h2 h3 =>
          exact List.Forall₂.cons hxy (ih _ (List.Forall₂.cons h2 h3))

theorem appendToLast_sim_skip (w : ArchWorld) (f : archiveFrame)
    (hw : w.writeFails f.Name = true) :
    ∀ (xs ys : List Segment), List.Forall₂ (segSim w) xs ys →
      List.Forall₂ (segSim w) xs (appendToLast ys f) := by
  intro xs
  induction xs with
  | nil =>
    intro ys h
    cases h
    exact List.Forall₂.nil
  | cons x xs ih =>
    intro ys h
    cases h with
    | cons hxy hrest =>
      rename_i y ys2
      cases xs with
      | nil =>
        cases hrest
        refine List.Forall₂.cons ⟨hxy.1, ?_⟩ List.Forall₂.nil
        simp [List.filter_append, hxy.2, hw]
      | cons x2 xs2 =>
        cases hrest with
        | cons h2 h3 =>
          exact List.Forall₂.cons hxy (ih _ (List.Forall₂.cons h2 h3))

theorem archiveStep_keeps_running (w : ArchWorld) (hc : ∀ t, w.createFails t = false)
    (s : WriterState) (f : archiveFrame) (hh : s.halted = false) :
    (archiveStep w s f).halted = false := by
  simp only [archiveStep, hh, Bool.false_eq_true, if_false]
  cases frameTs f with
  | none => exact hh
  | some t =>
    dsimp only
    split
    · rw [hc t]
      simp only [Bool.false_eq_true, if_false]
      split
      · rfl
      · rfl
    · split
      · exact hh
      · exact hh

theorem archive_sim_run (w : ArchWorld) (hc : ∀ t, w.createFails t = false) :
    ∀ (fs : List archiveFrame) (s s0 : WriterState),
      s.halted = false → s0.halted = false →
      s.currentTarStartMs = s0.currentTarStartMs →
      List.Forall₂ (segSim w) s.segments s0.segments →
      (fs.foldl (archiveStep w) s).halted = false
      ∧ (fs.foldl (archiveStep w) s).currentTarStartMs
          = (fs.foldl (archiveStep pureWorld) s0).currentTarStartMs
      ∧ List.Forall₂ (segSim w) (fs.foldl (archiveStep w) s).segments
          (fs.foldl (archiveStep pureWorld) s0).segments := by
  intro fs
  induction fs with
  | nil =>
    intro s s0 hh hh0 hcur hsim
    exact ⟨hh, hcur, hsim⟩
  | cons f rest ih =>
    intro s s0 hh hh0 hcur hsim
    simp only [List.foldl_cons]
    have hstep : (archiveStep w s f).halted = false
        ∧ (archiveStep w s f).currentTarStartMs
            = (archiveStep pureWorld s0 f).currentTarStartMs
        ∧ List.Forall₂ (segSim w) (archiveStep w s f).segments
            (archiveStep pureWorld s0 f).segments := by
      simp only [archiveStep, hh, hh0, Bool.false_eq_true, if_false]
      cases hp : frameTs f with
      | none => exact ⟨hh, hcur, hsim⟩
      | some t =>
        dsimp only
        rw [hcur]
        by_cases hrot : s0.currentTarStartMs = -1 ∨ t - s0.currentTarStartMs ≥ 60000
        · rw [if_pos hrot, if_pos hrot, hc t]
          simp only [pureWorld, Bool.false_eq_true, if_false]
          have hsim2 : List.Forall₂ (segSim w) (s.segments ++ [⟨t, []⟩])
              (s0.segments ++ [⟨t, []⟩]) :=
            List.rel_append hsim (List.Forall₂.cons ⟨rfl, rfl⟩ List.Forall₂.nil)
          by_cases hw : w.writeFails f.Name = true
          · rw [if_pos hw]
            exact ⟨rfl, rfl, appendToLast_sim_skip w f hw _ _ hsim2⟩
          · rw [if_neg hw]
            exact ⟨rfl, rfl,
              appendToLast_sim_keep w f (Bool.not_eq_true _ ▸ eq_false_of_ne_true hw) _ _ hsim2⟩
        · rw [if_neg hrot, if_neg hrot]
          simp only [pureWorld, Bool.false_eq_true, if_false]
          by_cases hw : w.writeFails f.Name = true
          · rw [if_pos hw]
            exact ⟨hh, hcur, appendToLast_sim_skip w f hw _ _ hsim⟩
          · rw [if_neg hw]
            exact ⟨hh, hcur,
              appendToLast_sim_keep w f (Bool.not_eq_true _ ▸ eq_false_of_ne_true hw) _ _ hsim⟩
    exact ih (archiveStep w s f) (archiveStep pureWorld s0 f)
      hstep.1 (archiveStep_keeps_running pureWorld (fun _ => rfl) s0 f hh0)
      hstep.2.1 hstep.2.2

/-- C5: the Archive Writer's two failure modes. (a) If creating the
segment file for a rotation fails, the writer halts with its archive
unchanged, and (b) once halted no later frame is archived. (c) If segment
creation never fails, a run with entry-write failures produces exactly the
segments of the failure-free run — same start timestamps — with precisely
the failing entries missing: each segment holds the failure-free entries
filtered to those whose writes succeed, so a write failure skips only its
own entry and the writer continues. -/
theorem c5_writer_error_taxonomy :
    (∀ (w : ArchWorld) (s : WriterState) (f : archiveFrame) (t : Int),
        s.halted = false → frameTs f = some t →
        (s.currentTarStartMs = -1 ∨ t - s.currentTarStartMs ≥ 60000) →
        w.createFails t = true →
        archiveStep w s f = { s with halted := true })
    ∧ (∀ (w : ArchWorld) (s : WriterState) (fs : List archiveFrame),
        s.halted = true → fs.foldl (archiveStep w) s = s)
    ∧ (∀ (w : ArchWorld) (fs : List archiveFrame),
        (∀ t, w.createFails t = false) →
        List.Forall₂ (segSim w) (archiveRun w fs).segments
          (archiveRun pureWorld fs).segments) := by
  refine ⟨?_, ?_, ?_⟩
  · intro w s f t hh hp hrot hcf
    simp [archiveStep, hh, hp, hrot, hcf]
  · intro w s fs hh
    exact foldl_archiveStep_halted w s fs hh
  · intro w fs hc
    exact (archive_sim_run w hc fs initialWriterState initialWriterState
      rfl rfl rfl List.Forall₂.nil).2.2

/-- Witness for C5: (a) at a concrete creation failure for start 60000 the
writer halts with its single earlier segment intact, and (c) with a write
failure on the frame named `30000.jpg` the run matches the failure-free
run with exactly that entry missing. -/
theorem c5_writer_error_taxonomy_witness :
    archiveStep ⟨fun t => t = 60000, fun _ => false⟩
        ⟨0, [⟨0, [⟨"0.jpg", [1]⟩]⟩], false⟩ ⟨"60000.jpg", [3]⟩
      = { (⟨0, [⟨0, [⟨"0.jpg", [1]⟩]⟩], false⟩ : WriterState) with halted := true }
    ∧ List.Forall₂ (segSim ⟨fun _ => false, fun n => n = "30000.jpg"⟩)
        (archiveRun ⟨fun _ => false, fun n => n = "30000.jpg"⟩
          [⟨"0.jpg", [1]⟩, ⟨"30000.jpg", [2]⟩, ⟨"60000.jpg", [3]⟩]).segments
        (archiveRun pureWorld
          [⟨"0.jpg", [1]⟩, ⟨"30000.jpg", [2]⟩, ⟨"60000.jpg", [3]⟩]).segments :=
  ⟨c5_writer_error_taxonomy.1 ⟨fun t => t = 60000, fun _ => false⟩
      ⟨0, [⟨0, [⟨"0.jpg", [1]⟩]⟩], false⟩ ⟨"60000.jpg", [3]⟩ 60000
      rfl (by decide) (by decide) (by decide),
    c5_writer_error_taxonomy.2.2 ⟨fun _ => false, fun n => n = "30000.jpg"⟩
      [⟨"0.jpg", [1]⟩, ⟨"30000.jpg", [2]⟩, ⟨"60000.jpg", [3]⟩] (fun _ => rfl)⟩

theorem appendToLast_concat (pre : List Segment) (seg : Segment) (f : archiveFrame) :
    appendToLast (pre ++ [seg]) f = pre ++ [{ seg with entries := seg.entries ++ [f] }] := by
  induction pre with
  | nil => rfl
  | cons p pre ih =>
    cases pre with
    | nil => rfl
    | cons q pre2 =>
      calc appendToLast ((p :: q :: pre2) ++ [seg]) f
          = p :: appendToLast ((q :: pre2) ++ [seg]) f := rfl
        _ = p :: ((q :: pre2) ++ [{ seg with entries := seg.entries ++ [f] }]) := by rw [ih]
        _ = (p :: q :: pre2) ++ [{ seg with entries := seg.entries ++ [f] }] := rfl

theorem entriesJoin_append (xs ys : List Segment) :
    entriesJoin (xs ++ ys) = entriesJoin xs ++ entriesJoin ys := by
  simp [entriesJoin]

theorem appendToLast_ne_nil (segs : List Segment) (f : archiveFrame)
    (hne : segs ≠ []) : appendToLast segs f ≠ [] := by
  intro h
  have h2 : segs.map Segment.startMs = [] := by
    rw [← appendToLast_map_startMs segs f, h]
    rfl
  exact hne (List.map_eq_nil_iff.mp h2)

theorem archiveStep_pure_rotate (s : WriterState) (f : archiveFrame) (t : Int)
    (hh : s.halted = false) (hp : frameTs f = some t)
    (hrot : s.currentTarStartMs = -1 ∨ t - s.currentTarStartMs ≥ 60000) :
    archiveStep pureWorld s f = ⟨t, s.segments ++ [⟨t, [f]⟩], false⟩ := by
  simp only [archiveStep, hh, Bool.false_eq_true, if_false, hp]
  rw [if_pos hrot]
  simp only [pureWorld, Bool.false_eq_true, if_false, appendEntry]
  rw [appendToLast_concat]
  simp

theorem archiveStep_pure_append (s : WriterState) (f : archiveFrame) (t : Int)
    (hh : s.halted = false) (hp : frameTs f = some t)
    (hrot : ¬(s.currentTarStartMs = -1 ∨ t - s.currentTarStartMs ≥ 60000)) :
    archiveStep pureWorld s f = appendEntry s f := by
  simp only [archiveStep, hh, Bool.false_eq_true, if_false, hp]
  rw [if_neg hrot]
  simp [pureWorld]

theorem archive_pure_run_starts :
    ∀ (ts : List Int) (fs : List archiveFrame) (s : WriterState),
      fs.map frameTs = ts.map some →
      s.halted = false →
      (s.currentTarStartMs ≠ -1 → s.segments ≠ []) →
      (fs.foldl (archiveStep pureWorld) s).segments.map Segment.startMs
          = s.segments.map Segment.startMs ++ segStartsAux s.currentTarStartMs ts
      ∧ entriesJoin (fs.foldl (archiveStep pureWorld) s).segments
          = entriesJoin s.segments ++ fs := by
  intro ts
  induction ts with
  | nil =>
    intro fs s hparse _ _
    cases fs with
    | cons f fs2 => simp at hparse
    | nil => simp [segStartsAux]
  | cons t rest ih =>
    intro fs s hparse hh hinv
    cases fs with
    | nil => simp at hparse
    | cons f fs2 =>
      simp only [List.map_cons, List.cons.injEq] at hparse
      obtain ⟨hf, hfs2⟩ := hparse
      simp only [List.foldl_cons]
      by_cases hrot : s.currentTarStartMs = -1 ∨ t - s.currentTarStartMs ≥ 60000
      · rw [archiveStep_pure_rotate s f t hh hf hrot]
        have hIH := ih fs2 ⟨t, s.segments ++ [⟨t, [f]⟩], false⟩ hfs2 rfl
          (fun _ => by simp)
        refine ⟨?_, ?_⟩
        · rw [hIH.1]
          simp only [segStartsAux, if_pos hrot]
          simp [List.append_assoc]
        · rw [hIH.2]
          simp [entriesJoin_append, entriesJoin, List.append_assoc]
      · have hcur : s.currentTarStartMs ≠ -1 := fun hc => hrot (Or.inl hc)
        rw [archiveStep_pure_append s f t hh hf hrot]
        have hIH := ih fs2 (appendEntry s f) hfs2 hh
          (fun _ => appendToLast_ne_nil s.segments f (hinv hcur))
        refine ⟨?_, ?_⟩
        · rw [hIH.1]
          simp only [appendEntry, appendToLast_map_startMs]
          simp only [segStartsAux, if_neg hrot]
        · rw [hIH.2]
          simp only [appendEntry]
          rw [entriesJoin_appendToLast s.segments f (hinv hcur)]
          simp [List.append_assoc]

/-- The invariant the retrieval window property needs: every entry of the
segment carries a parsable timestamp inside the segment's 60-second
window. -/
def windowOk (seg : Segment) : Prop :=
  ∀ e ∈ seg.entries, ∃ u, frameTs e = some u
    ∧ seg.startMs ≤ u ∧ u < seg.startMs + 60000

theorem archive_pure_run_window :
    ∀ (ts : List Int) (fs : List archiveFrame) (s : WriterState),
      fs.map frameTs = ts.map some →
      s.halted = false →
      (s.currentTarStartMs ≠ -1 →
        ∃ pre seg, s.segments = pre ++ [seg] ∧ seg.startMs = s.currentTarStartMs) →
      (∀ seg ∈ s.segments, windowOk seg) →
      (∀ u ∈ ts, s.currentTarStartMs = -1 ∨ s.currentTarStartMs ≤ u) →
      List.Pairwise (· ≤ ·) ts →
      ∀ seg ∈ (fs.foldl (archiveStep pureWorld) s).segments, windowOk seg := by
  intro ts
  induction ts with
  | nil =>
    intro fs s hparse hh _ hok _ _
    cases fs with
    | cons f fs2 => simp at hparse
    | nil => simpa using hok
  | cons t rest ih =>
    intro fs s hparse hh hlast hok hbound hsorted
    cases fs with
    | nil => simp at hparse
    | cons f fs2 =>
      simp only [List.map_cons, List.cons.injEq] at hparse
      obtain ⟨hf, hfs2⟩ := hparse
      simp only [List.foldl_cons]
      have hsorted2 : List.Pairwise (· ≤ ·) rest := (List.pairwise_cons.mp hsorted).2
      have hhead : ∀ u ∈ rest, t ≤ u := (List.pairwise_cons.mp hsorted).1
      by_cases hrot : s.currentTarStartMs = -1 ∨ t - s.currentTarStartMs ≥ 60000
      · rw [archiveStep_pure_rotate s f t hh hf hrot]
        refine ih fs2 ⟨t, s.segments ++ [⟨t, [f]⟩], false⟩ hfs2 rfl
          (fun _ => ⟨s.segments, ⟨t, [f]⟩, rfl, rfl⟩) ?_
          (fun u hu => Or.inr (hhead u hu)) hsorted2
        intro seg hseg
        rcases List.mem_append.mp hseg with h1 | h1
        · exact hok seg h1
        · rw [List.mem_singleton.mp h1]
          intro e he
          rw [List.mem_singleton.mp he]
          refine ⟨t, hf, ?_, ?_⟩ <;> simp
      · have hcur : s.currentTarStartMs ≠ -1 := fun hc => hrot (Or.inl hc)
        obtain ⟨pre, seg0, hsegs, hstart⟩ := hlast hcur
        have hcle : s.currentTarStartMs ≤ t := by
          rcases hbound t (by simp) with h | h
          · exact absurd h hcur
          · exact h
        have htlt : t < s.currentTarStartMs + 60000 := by
          push_neg at hrot
          omega
        rw [archiveStep_pure_append s f t hh hf hrot]
        have hsegs2 : (appendEntry s f).segments
            = pre ++ [{ seg0 with entries := seg0.entries ++ [f] }] := by
          simp only [appendEntry, hsegs, appendToLast_concat]
        refine ih fs2 (appendEntry s f) hfs2 hh ?_ ?_ ?_ hsorted2
        · intro _
          exact ⟨pre, { seg0 with entries := seg0.entries ++ [f] }, hsegs2, hstart⟩
        · intro seg hseg
          rw [hsegs2] at hseg
          rcases List.mem_append.mp hseg with h1 | h1
          · exact hok seg (by rw [hsegs]; exact List.mem_append.mpr (Or.inl h1))
          · rw [List.mem_singleton.mp h1]
            intro e he
            rcases List.mem_append.mp he with h2 | h2
            · exact hok seg0 (by rw [hsegs]; simp) e h2
            · rw [List.mem_singleton.mp h2]
              exact ⟨t, hf, by rw [hstart] at *; exact ⟨hcle, htlt⟩⟩
        · intro u hu
          exact hbound u (by simp [hu])

theorem segStartsAux_length_count :
    ∀ (ts : List Int) (cur : Int), (∀ u ∈ ts, u ≠ -1) →
      (cur ≠ -1 → (segStartsAux cur ts).length = countWindowFires cur ts)
      ∧ (cur = -1 → ts ≠ [] →
          (segStartsAux cur ts).length = 1 + countWindowFires cur ts) := by
  intro ts
  induction ts with
  | nil =>
    intro cur _
    exact ⟨fun _ => rfl, fun _ h => absurd rfl h⟩
  | cons t rest ih =>
    intro cur hne
    have htne : t ≠ -1 := hne t (by simp)
    have hrest : ∀ u ∈ rest, u ≠ -1 := fun u hu => hne u (by simp [hu])
    constructor
    · intro hcur
      by_cases hfire : t - cur ≥ 60000
      · simp only [segStartsAux, countWindowFires, if_neg hcur, if_pos hfire,
          if_pos (Or.inr hfire), List.length_cons]
        rw [(ih t hrest).1 htne]
      · have hcond : ¬(cur = -1 ∨ t - cur ≥ 60000) := by
          push_neg
          exact ⟨hcur, by omega⟩
        simp only [segStartsAux, countWindowFires, if_neg hcur, if_neg hfire,
          if_neg hcond]
        exact (ih cur hrest).1 hcur
    · intro hcur _
      simp only [segStartsAux, countWindowFires, if_pos hcur,
        if_pos (Or.inl hcur), List.length_cons]
      rw [(ih t hrest).1 htne]
      omega

/-- Counterexample to C2: two frames both at timestamp -1. After the first
frame a segment IS open (it starts at -1), and the second frame satisfies
neither "no segment is open" nor `t - segmentStart ≥ 60000` (the
difference is 0), so the claim predicts a single segment; but the writer
re-uses -1 as its no-segment sentinel and rotates again, creating two
segments — violating the claimed segment-count formula. -/
theorem c2_counterexample :
    (archiveRun pureWorld [⟨"-1.jpg", [1]⟩, ⟨"-1.jpg", [2]⟩]).segments.length = 2
    ∧ countWindowFires (-1) [-1, -1] = 0
    ∧ (archiveRun pureWorld [⟨"-1.jpg", [1]⟩, ⟨"-1.jpg", [2]⟩]).segments.length
        ≠ 1 + countWindowFires (-1) [-1, -1] := by
  refine ⟨by decide, by decide, by decide⟩

/-- C2 as amended: rotation fires exactly when the writer's recorded
segment start is the -1 sentinel or the frame is ≥ 60000 ms past it; for
frame timestamps never equal to -1 (where the sentinel coincides with "no
segment is open") the claimed count holds: segments created = 1 + number
of window firings. Every frame is archived, and under non-decreasing
timestamps every frame lands in a segment whose window
`[segmentStart, segmentStart + 60000)` contains it. -/
theorem c2_segment_rotation_amended (fs : List archiveFrame) (ts : List Int)
    (hparse : fs.map frameTs = ts.map some) :
    (archiveRun pureWorld fs).segments.map Segment.startMs = segStartsAux (-1) ts
    ∧ entriesJoin (archiveRun pureWorld fs).segments = fs
    ∧ (ts ≠ [] → (∀ u ∈ ts, u ≠ -1) →
        (archiveRun pureWorld fs).segments.length = 1 + countWindowFires (-1) ts)
    ∧ (List.Pairwise (· ≤ ·) ts →
        ∀ seg ∈ (archiveRun pureWorld fs).segments, ∀ e ∈ seg.entries,
          ∃ u, frameTs e = some u ∧ seg.startMs ≤ u ∧ u < seg.startMs + 60000) := by
  have hM := archive_pure_run_starts ts fs initialWriterState hparse rfl
    (fun h => absurd rfl h)
  have h1 : (archiveRun pureWorld fs).segments.map Segment.startMs
      = segStartsAux (-1) ts := by
    simpa [archiveRun, initialWriterState, entriesJoin] using hM.1
  have h2 : entriesJoin (archiveRun pureWorld fs).segments = fs := by
    simpa [archiveRun, initialWriterState, entriesJoin] using hM.2
  refine ⟨h1, h2, ?_, ?_⟩
  · intro hne hnone
    have hlen : (archiveRun pureWorld fs).segments.length
        = (segStartsAux (-1) ts).length := by
      rw [← h1, List.length_map]
    rw [hlen, (segStartsAux_length_count ts (-1) hnone).2 rfl hne]
  · intro hsorted seg hseg
    exact archive_pure_run_window ts fs initialWriterState hparse rfl
      (fun h => absurd rfl h) (by simp [initialWriterState])
      (fun u _ => Or.inl rfl) hsorted seg hseg

/-- The concrete frame sequence used as witness for C2. -/
def c2Frames : List archiveFrame :=
  [⟨"0.jpg", [1]⟩, ⟨"30000.jpg", [2]⟩, ⟨"60000.jpg", [3]⟩, ⟨"125000.jpg", [4]⟩]

/-- Witness for C2 (amended): on frames at 0, 30000, 60000, 125000 the run
creates 1 + 2 segments and archives every frame. -/
theorem c2_segment_rotation_amended_witness :
    (archiveRun pureWorld c2Frames).segments.length
        = 1 + countWindowFires (-1) [0, 30000, 60000, 125000]
      ∧ entriesJoin (archiveRun pureWorld c2Frames).segments = c2Frames :=
  ⟨(c2_segment_rotation_amended c2Frames [0, 30000, 60000, 125000]
      (by decide)).2.2.1 (by decide) (by decide),
    (c2_segment_rotation_amended c2Frames [0, 30000, 60000, 125000]
      (by decide)).2.1⟩

theorem selectFold_spec (target : Int) :
    ∀ (files : List DirEntry) (acc : Option String × Int),
      (∀ name, acc.1 = some name → tarFileTs name = some acc.2 ∧ acc.2 ≤ target) →
      (∀ name, (files.foldl (selectStep target) acc).1 = some name →
          tarFileTs name = some (files.foldl (selectStep target) acc).2
          ∧ (files.foldl (selectStep target) acc).2 ≤ target
          ∧ (acc.1 = some name ∨ ∃ f, f ∈ files ∧ f.isDir = false ∧ f.name = name))
      ∧ (∀ g ∈ files, g.isDir = false → ∀ u, tarFileTs g.name = some u →
          u ≤ target → u ≤ (files.foldl (selectStep target) acc).2)
      ∧ ((files.foldl (selectStep target) acc).1 = none →
          files.foldl (selectStep target) acc = acc)
      ∧ acc.2 ≤ (files.foldl (selectStep target) acc).2 := by
  intro files
  induction files with
  | nil =>
    intro acc hacc
    refine ⟨fun name h => ⟨(hacc name h).1, (hacc name h).2, Or.inl h⟩,
      ?_, fun _ => rfl, le_refl _⟩
    intro g hg
    simp at hg
  | cons fl rest ih =>
    intro acc hacc
    simp only [List.foldl_cons]
    by_cases hdir : fl.isDir = true
    · have heq : selectStep target acc fl = acc := by simp [selectStep, hdir]
      rw [heq]
      obtain ⟨A, B, C, D⟩ := ih acc hacc
      refine ⟨fun name h => ?_, fun g hg hgd u hu hule => ?_, C, D⟩
      · obtain ⟨a1, a2, a3⟩ := A name h
        refine ⟨a1, a2, a3.imp id fun ⟨f, hf1, hf2, hf3⟩ => ⟨f, by simp [hf1], hf2, hf3⟩⟩
      · rcases List.mem_cons.mp hg with h1 | h1
        · rw [h1, hdir] at hgd
          cases hgd
        · exact B g h1 hgd u hu hule
    · cases hp : tarFileTs fl.name with
      | none =>
        have heq : selectStep target acc fl = acc := by simp [selectStep, hdir, hp]
        rw [heq]
        obtain ⟨A, B, C, D⟩ := ih acc hacc
        refine ⟨fun name h => ?_, fun g hg hgd u hu hule => ?_, C, D⟩
        · obtain ⟨a1, a2, a3⟩ := A name h
          refine ⟨a1, a2, a3.imp id fun ⟨f, hf1, hf2, hf3⟩ => ⟨f, by simp [hf1], hf2, hf3⟩⟩
        · rcases List.mem_cons.mp hg with h1 | h1
          · rw [h1, hp] at hu
            cases hu
          · exact B g h1 hgd u hu hule
      | some v =>
        by_cases hcond : v ≤ target ∧ acc.2 < v
        · have heq : selectStep target acc fl = (some fl.name, v) := by
            simp [selectStep, hdir, hp, hcond]
          rw [heq]
          have hacc2 : ∀ name, (some fl.name, v).1 = some name →
              tarFileTs name = some (some fl.name, v).2 ∧ (some fl.name, v).2 ≤ target := by
            intro name h
            simp only [Option.some.injEq] at h
            rw [← h]
            exact ⟨hp, hcond.1⟩
          obtain ⟨A, B, C, D⟩ := ih (some fl.name, v) hacc2
          refine ⟨fun name h => ?_, fun g hg hgd u hu hule => ?_, fun h => ?_, ?_⟩
          · obtain ⟨a1, a2, a3⟩ := A name h
            refine ⟨a1, a2, Or.inr ?_⟩
            rcases a3 with h3 | ⟨f, hf1, hf2, hf3⟩
            · simp only [Option.some.injEq] at h3
              exact ⟨fl, by simp, eq_false_of_ne_true hdir, h3⟩
            · exact ⟨f, by simp [hf1], hf2, hf3⟩
          · rcases List.mem_cons.mp hg with h1 | h1
            · rw [h1, hp] at hu
              simp only [Option.some.injEq] at hu
              rw [← hu]
              exact D
            · exact B g h1 hgd u hu hule
          · have h2 := C h
            rw [h2] at h
            simp at h
          · exact le_trans (le_of_lt hcond.2) D
        · have heq : selectStep target acc fl = acc := by
            simp only [selectStep, hdir, Bool.false_eq_true, if_false, hp]
            rw [if_neg hcond]
          rw [heq]
          obtain ⟨A, B, C, D⟩ := ih acc hacc
          refine ⟨fun name h => ?_, fun g hg hgd u hu hule => ?_, C, D⟩
          · obtain ⟨a1, a2, a3⟩ := A name h
            refine ⟨a1, a2, a3.imp id fun ⟨f, hf1, hf2, hf3⟩ => ⟨f, by simp [hf1], hf2, hf3⟩⟩
          · rcases List.mem_cons.mp hg with h1 | h1
            · rw [h1, hp] at hu
              simp only [Option.some.injEq] at hu
              have hva : v ≤ acc.2 := by
                by_contra hva
                exact hcond ⟨by rw [hu]; exact hule, lt_of_not_le hva⟩
              rw [← hu]
              exact le_trans hva D
            · exact B g h1 hgd u hu hule

/-- The directory listing of the two-segment scenario of claim C3. -/
def dirC3 : List DirEntry := [⟨"cam_0.tar", false⟩, ⟨"cam_60000.tar", false⟩]

/-- The segment contents of the two-segment scenario of claim C3: the
segment starting at 0 holds a frame at 59000 with payload `[21]`, the one
starting at 60000 holds a frame at 60500 with payload `[22]`. -/
def openC3 : String → Option TarFile := fun n =>
  if n = "cam_0.tar" then some ⟨[⟨true, "59000.jpg", [21], false⟩], false⟩
  else if n = "cam_60000.tar" then some ⟨[⟨true, "60500.jpg", [22], false⟩], false⟩
  else none

/-- Counterexample to C3: a single segment whose `segmentStart` is `-5`,
holding a frame at `-10`. For target `0` the claim demands selecting the
segment with the greatest `segmentStart ≤ 0` (namely `-5`) and returning
that frame; but the selection tracker starts at `-1`, so no segment with a
negative start can ever beat it, and the code reports not-found at the
directory stage instead. -/
theorem c3_counterexample :
    tarFileTs "cam_-5.tar" = some (-5)
    ∧ ((-5 : Int) ≤ 0)
    ∧ handleImageRequest "0" (some [⟨"cam_-5.tar", false⟩])
        (fun n => if n = "cam_-5.tar"
          then some ⟨[⟨true, "-10.jpg", [31], false⟩], false⟩ else none)
        = ImageResult.noArchive
    ∧ ImageResult.noArchive ≠ ImageResult.ok [31] := by
  refine ⟨by decide, by decide, by decide, by decide⟩

/-- C3 as amended: retrieval selects the segment with the greatest
NONNEGATIVE `segmentStart ≤ target` (the max tracker starts at -1, so
segments with negative starts are invisible); if a segment is selected its
start is maximal among all parsable candidates `≤ target`, and when no
nonnegative candidate `≤ target` exists, not-found is reported. The scan
then never falls back to an earlier segment: in the concrete two-segment
scenario, target 60200 selects segment 60000 and reports not-found even
though segment 0 holds a frame ≤ target; target 59500 selects segment 0
and returns the frame at 59000; a target below every segment start
reports not-found. -/
theorem c3_cross_segment_selection :
    (∀ (target : Int) (files : List DirEntry),
        (∀ name, (selectBestTar target files).1 = some name →
          tarFileTs name = some (selectBestTar target files).2
          ∧ (selectBestTar target files).2 ≤ target
          ∧ (∃ f, f ∈ files ∧ f.isDir = false ∧ f.name = name)
          ∧ ∀ g ∈ files, g.isDir = false →
              ∀ u, tarFileTs g.name = some u → u ≤ target →
                u ≤ (selectBestTar target files).2)
        ∧ ((selectBestTar target files).1 = none →
            ∀ g ∈ files, g.isDir = false →
              ∀ u, tarFileTs g.name = some u → 0 ≤ u → ¬ u ≤ target))
    ∧ handleImageRequest "60200" (some dirC3) openC3 = ImageResult.noImage
    ∧ handleImageRequest "59500" (some dirC3) openC3 = ImageResult.ok [21]
    ∧ handleImageRequest "-100000" (some dirC3) openC3 = ImageResult.noArchive := by
  refine ⟨?_, by decide, by decide, by decide⟩
  intro target files
  obtain ⟨A, B, C, D⟩ := selectFold_spec target files (none, -1) (by simp)
  constructor
  · intro name h
    obtain ⟨a1, a2, a3⟩ := A name h
    refine ⟨a1, a2, ?_, fun g hg hgd u hu hule => B g hg hgd u hu hule⟩
    rcases a3 with h3 | h3
    · simp at h3
    · exact h3
  · intro h g hg hgd u hu hu0 hule
    have h2 := C h
    have h3 := B g hg hgd u hu hule
    rw [h2] at h3
    simp only at h3
    omega

/-- Witness for C3 (amended): in the concrete scenario at target 60200 the
selected segment start (60000) is at most the target. -/
theorem c3_cross_segment_selection_witness :
    (selectBestTar 60200 dirC3).2 ≤ 60200 :=
  (((c3_cross_segment_selection.1 60200 dirC3).1 "cam_60000.tar" (by decide))).2.1

/-- The value of a most-significant-first decimal digit list. -/
def digitsVal (ds : List Nat) : Nat := ds.foldl (fun a d => 10 * a + d) 0

theorem foldl_digits_shift (ds : List Nat) :
    ∀ a : Nat, ds.foldl (fun x d => 10 * x + d) a = a * 10 ^ ds.length + digitsVal ds := by
  induction ds with
  | nil =>
    intro a
    simp [digitsVal]
  | cons d ds ih =>
    intro a
    simp only [List.foldl_cons]
    rw [ih (10 * a + d)]
    have h3 : digitsVal (d :: ds) = d * 10 ^ ds.length + digitsVal ds := by
      simp only [digitsVal, List.foldl_cons]
      simpa using ih d
    rw [h3, List.length_cons]
    ring

theorem digitsVal_cons (d : Nat) (ds : List Nat) :
    digitsVal (d :: ds) = d * 10 ^ ds.length + digitsVal ds := by
  simp only [digitsVal, List.foldl_cons]
  simpa using foldl_digits_shift ds d

theorem digitsVal_append (xs ys : List Nat) :
    digitsVal (xs ++ ys) = digitsVal xs * 10 ^ ys.length + digitsVal ys := by
  simp only [digitsVal, List.foldl_append]
  exact foldl_digits_shift ys _

theorem decDigitsAux_spec : ∀ (fuel n : Nat), n ≤ fuel →
    (∀ d ∈ decDigitsAux fuel n, d < 10)
    ∧ digitsVal (decDigitsAux fuel n) = n
    ∧ decDigitsAux fuel n ≠ [] := by
  intro fuel
  induction fuel with
  | zero =>
    intro n hn
    have hz : n = 0 := by omega
    subst hz
    refine ⟨?_, by simp [decDigitsAux, digitsVal], by simp [decDigitsAux]⟩
    intro d hd
    simp [decDigitsAux] at hd
    omega
  | succ fuel ih =>
    intro n hn
    by_cases h10 : n < 10
    · simp only [decDigitsAux, if_pos h10]
      refine ⟨?_, by simp [digitsVal], by simp⟩
      intro d hd
      simp at hd
      omega
    · simp only [decDigitsAux, if_neg h10]
      have hdiv : n / 10 ≤ fuel := by
        have := Nat.div_lt_self (show 0 < n by omega) (show 1 < 10 by omega)
        omega
      obtain ⟨hlt, hval, _⟩ := ih (n / 10) hdiv
      refine ⟨?_, ?_, by simp⟩
      · intro d hd
        rcases List.mem_append.mp hd with h1 | h1
        · exact hlt d h1
        · rw [List.mem_singleton.mp h1]
          exact Nat.mod_lt n (by omega)
      · rw [digitsVal_append, hval]
        have hm : digitsVal [n % 10] = n % 10 := by simp [digitsVal]
        rw [hm]
        simp only [List.length_singleton, pow_one]
        omega

theorem decDigits_lt (n : Nat) : ∀ d ∈ decDigits n, d < 10 :=
  (decDigitsAux_spec n n (le_refl n)).1

theorem digitsVal_decDigits (n : Nat) : digitsVal (decDigits n) = n :=
  (decDigitsAux_spec n n (le_refl n)).2.1

theorem digitsVal_lt_pow : ∀ (ds : List Nat), (∀ d ∈ ds, d < 10) →
    digitsVal ds < 10 ^ ds.length := by
  intro ds
  induction ds with
  | nil =>
    intro
    simp [digitsVal]
  | cons d ds ih =>
    intro h
    rw [digitsVal_cons, List.length_cons]
    have h1 : d ≤ 9 := by
      have := h d (by simp)
      omega
    have h2 : digitsVal ds < 10 ^ ds.length := ih (fun x hx => h x (by simp [hx]))
    have h3 : d * 10 ^ ds.length ≤ 9 * 10 ^ ds.length := Nat.mul_le_mul_right _ h1
    have h4 : (10 : Nat) ^ (ds.length + 1) = 10 * 10 ^ ds.length := by ring
    omega

theorem lexLtN_of_val_lt : ∀ (da db : List Nat), da.length = db.length →
    (∀ d ∈ db, d < 10) → digitsVal da < digitsVal db → lexLtN da db = true := by
  intro da
  induction da with
  | nil =>
    intro db hlen _ hval
    cases db with
    | nil => simp [digitsVal] at hval
    | cons b bs => simp at hlen
  | cons a as ih =>
    intro db hlen hdig hval
    cases db with
    | nil => simp at hlen
    | cons b bs =>
      simp only [List.length_cons] at hlen
      have hlen2 : as.length = bs.length := by omega
      by_cases hab : a < b
      · simp [lexLtN, hab]
      · by_cases hba : b < a
        · exfalso
          rw [digitsVal_cons, digitsVal_cons, hlen2] at hval
          have hvb : digitsVal bs < 10 ^ bs.length :=
            digitsVal_lt_pow bs (fun x hx => hdig x (by simp [hx]))
          have h3 : (b + 1) * 10 ^ bs.length ≤ a * 10 ^ bs.length :=
            Nat.mul_le_mul_right _ hba
          have h4 : (b + 1) * 10 ^ bs.length = b * 10 ^ bs.length + 10 ^ bs.length := by
            ring
          omega
        · have hee : a = b := by omega
          subst hee
          simp only [lexLtN, if_neg hab, if_neg hba]
          apply ih bs hlen2 (fun x hx => hdig x (by simp [hx]))
          rw [digitsVal_cons, digitsVal_cons, hlen2] at hval
          omega

theorem digitChar_toNat (d : Nat) (h : d < 10) : (digitChar d).toNat = 48 + d := by
  interval_cases d <;> rfl

theorem lexLt_map_digitChar : ∀ (da db : List Nat), (∀ d ∈ da, d < 10) →
    (∀ d ∈ db, d < 10) →
    lexLt (da.map digitChar) (db.map digitChar) = lexLtN da db := by
  intro da
  induction da with
  | nil =>
    intro db _ _
    cases db <;> rfl
  | cons a as ih =>
    intro db hda hdb
    cases db with
    | nil => rfl
    | cons b bs =>
      simp only [List.map_cons, lexLt, lexLtN]
      rw [digitChar_toNat a (hda a (by simp)), digitChar_toNat b (hdb b (by simp))]
      by_cases h1 : a < b
      · rw [if_pos (by omega), if_pos h1]
      · by_cases h2 : b < a
        · rw [if_neg (by omega), if_pos (by omega), if_neg h1, if_pos h2]
        · rw [if_neg (by omega), if_neg (by omega), if_neg h1, if_neg h2]
          exact ih bs (fun x hx => hda x (by simp [hx])) (fun x hx => hdb x (by simp [hx]))

theorem lexLt_append_same : ∀ (p x y : List Char), lexLt (p ++ x) (p ++ y) = lexLt x y := by
  intro p
  induction p with
  | nil =>
    intro x y
    rfl
  | cons c p ih =>
    intro x y
    simp only [List.cons_append, lexLt]
    rw [if_neg (lt_irrefl c.toNat), if_neg (lt_irrefl c.toNat)]
    exact ih x y

theorem lexLt_append_of_lexLt : ∀ (x y : List Char), x.length = y.length →
    lexLt x y = true → ∀ (u v : List Char), lexLt (x ++ u) (y ++ v) = true := by
  intro x
  induction x with
  | nil =>
    intro y hlen hxy
    cases y with
    | nil => simp [lexLt] at hxy
    | cons b bs => simp at hlen
  | cons a as ih =>
    intro y hlen hxy
    cases y with
    | nil => simp at hlen
    | cons b bs =>
      intro u v
      simp only [List.cons_append, lexLt] at hxy ⊢
      by_cases h1 : a.toNat < b.toNat
      · rw [if_pos h1]
      · rw [if_neg h1] at hxy ⊢
        by_cases h2 : b.toNat < a.toNat
        · rw [if_pos h2] at hxy
          cases hxy
        · rw [if_neg h2] at hxy ⊢
          exact ih bs (by simpa using hlen) hxy u v

theorem toList_append (s t : String) : (s ++ t).toList = s.toList ++ t.toList := by
  cases s
  cases t
  rfl

/-- Counterexample to C8: segment starts 9 < 10, yet the file name for 10
sorts lexicographically BEFORE the file name for 9 (decimal names are not
zero-padded, so `"1" < "9"` decides the comparison). -/
theorem c8_counterexample :
    ((9 : Int) < 10)
    ∧ lexLt (tarSegmentName "cam" 9).toList (tarSegmentName "cam" 10).toList = false
    ∧ lexLt (tarSegmentName "cam" 10).toList (tarSegmentName "cam" 9).toList = true := by
  refine ⟨by decide, by decide, by decide⟩

/-- C8 as amended: segment file names sort lexicographically in
`segmentStart` order only when the decimal representations have equal
length: for `0 ≤ a < b` whose decimal digit strings are equally long
(e.g. any two realistic millisecond timestamps, which have the same digit
count), the name for `a` sorts strictly before the name for `b`. -/
theorem c8_segment_names_sort_amended (streamName : String) (a b : Int)
    (ha : 0 ≤ a) (hab : a < b)
    (hlen : (decDigits a.natAbs).length = (decDigits b.natAbs).length) :
    lexLt (tarSegmentName streamName a).toList
      (tarSegmentName streamName b).toList = true := by
  have hb : 0 ≤ b := le_trans ha (le_of_lt hab)
  have hfa : (formatInt a).toList = (decDigits a.natAbs).map digitChar := by
    simp only [formatInt, if_neg (not_lt.mpr ha)]
    rfl
  have hfb : (formatInt b).toList = (decDigits b.natAbs).map digitChar := by
    simp only [formatInt, if_neg (not_lt.mpr hb)]
    rfl
  have hassemble : ∀ m : Int, (tarSegmentName streamName m).toList
      = (streamName.toList ++ ['_']) ++ ((formatInt m).toList ++ (".tar").toList) := by
    intro m
    simp only [tarSegmentName, toList_append, List.append_assoc]
    rfl
  rw [hassemble a, hassemble b, lexLt_append_same, hfa, hfb]
  have hvab : a.natAbs < b.natAbs := by omega
  apply lexLt_append_of_lexLt
  · simp [hlen]
  · rw [lexLt_map_digitChar _ _ (decDigits_lt a.natAbs) (decDigits_lt b.natAbs)]
    apply lexLtN_of_val_lt _ _ hlen (decDigits_lt b.natAbs)
    rw [digitsVal_decDigits, digitsVal_decDigits]
    exact hvab

/-- Witness for C8 (amended): with equal digit counts (10 < 99) the name
for 10 sorts before the name for 99. -/
theorem c8_segment_names_sort_amended_witness :
    lexLt (tarSegmentName "cam" 10).toList (tarSegmentName "cam" 99).toList = true :=
  c8_segment_names_sort_amended "cam" 10 99 (by decide) (by decide) (by decide)

end Mjpeg
